import Mathlib

/-!
Verification development for the Pokémon subtitle-name normalizer
(`pokemon_normalize_ass.py`).

The core of the program is embedded shallowly:

* lines and tokens are `List Char` (Python `str` values, one code point
  per `Char`);
* `rapidfuzz.fuzz.ratio` is the normalized Indel similarity
  `200 * lcs(a,b) / (|a| + |b|)`, represented exactly as a fraction of
  naturals compared by cross multiplication (the Python float is exact
  at the integer thresholds compared against here);
* `rapidfuzz.process.extractOne` is a left fold that keeps the first
  choice achieving the maximum score;
* the two-pass normalizer `fix_line_with_meta` is translated branch by
  branch, including the token regex `[A-Za-z][A-Za-z0-9'-]*`, the
  bigram pass with its `used` set, the unigram pass with its
  `occupied` set, and the right-to-left span rewriting.
-/

/-- A Python string, one `Char` per code point. -/
abbrev Str := List Char

/-- Convert a Lean string literal to the `Str` representation. -/
def strL (s : String) : Str := s.toList

/-- `[A-Za-z]` : the regex start-of-token class. -/
def isWordStart (c : Char) : Bool := c.isAlpha

/-- `[A-Za-z0-9'-]` : the regex continuation class. -/
def isWordChar (c : Char) : Bool := c.isAlpha || c.isDigit || c == '\'' || c == '-'

/-- Python `str.lower()` restricted to the ASCII range used by the data. -/
def lowerStr (s : Str) : Str := s.map Char.toLower

/-- Python `str.isupper()` on a token: at least one cased (alphabetic)
character and no lowercase one.  Tokens are ASCII by the token regex. -/
def pyIsUpper (w : Str) : Bool := w.any Char.isAlpha && w.all (fun c => !c.isLower)

/-- `_is_title_like`: first letter uppercase, word not ALL CAPS. -/
def is_title_like (w : Str) : Bool :=
  match w with
  | [] => false
  | c :: _ => c.isUpper && !pyIsUpper w

/-- Characters stripped from the right of a token: `w.rstrip(".,'")`. -/
def isStripChar (c : Char) : Bool := c == '.' || c == ',' || c == '\''

/-- Python `w.rstrip(".,'")`. -/
def rstripPunct (w : Str) : Str := (w.reverse.dropWhile isStripChar).reverse

/-- The stripped base of a token:
`w.rstrip(".,'").replace(chr(0x2019), empty)`.  (The right single quote
U+2019 cannot actually occur inside a token of `[A-Za-z][A-Za-z0-9'-]*`,
so the `replace` is kept for faithfulness only.) -/
def stripBase (w : Str) : Str := (rstripPunct w).filter (fun c => c ≠ '’')

/-- Python `s.split(sep)` for a one-character separator. -/
def pySplit (sep : Char) : Str → List Str := fun s => List.splitOn sep s

/-- Longest common subsequence length, structurally recursive on a fuel
argument so that it reduces inside the kernel; `lcs` below supplies
enough fuel for the recursion (which consumes one character of one of
the two strings per unit of fuel) to always complete. -/
def lcsFuel : Nat → Str → Str → Nat
  | 0, _, _ => 0
  | _ + 1, [], _ => 0
  | _ + 1, _ :: _, [] => 0
  | k + 1, a :: as, b :: bs =>
    if a = b then lcsFuel k as bs + 1
    else max (lcsFuel k (a :: as) bs) (lcsFuel k as (b :: bs))

/-- Longest common subsequence length; `fuzz.ratio` is the normalized
Indel similarity, and the Indel distance is `|a| + |b| - 2 * lcs a b`. -/
def lcs (a b : Str) : Nat := lcsFuel (a.length + b.length) a b

/-- A similarity score, an exact (unnormalized) non-negative fraction
`num / den` with `den ≠ 0` wherever produced.  The Python float
`fuzz.ratio` value `200*lcs/(|a|+|b|)` is compared only against the
integer thresholds 75/80/90 and against other scores; all those
comparisons are exact for the string lengths involved, so the fraction
with cross-multiplication ordering is a faithful model. -/
structure Score where
  num : Nat
  den : Nat
deriving Repr, DecidableEq

/-- Strict order on scores: `a/b < c/d ↔ a*d < c*b` (denominators
positive). -/
def scoreLt (s t : Score) : Bool := s.num * t.den < t.num * s.den

/-- An integer-valued score, used for the thresholds and the zero
score returned on an empty meta list. -/
def scoreOfNat (n : Nat) : Score := ⟨n, 1⟩

/-- `rapidfuzz.fuzz.ratio`: `100 * (1 - indel/(|a|+|b|)) = 200*lcs/(|a|+|b|)`,
with the convention that two empty strings score 100. -/
def fuzzScore (a b : Str) : Score :=
  if a.length + b.length = 0 then scoreOfNat 100
  else ⟨200 * lcs a b, a.length + b.length⟩

/-- One scan step of `extractOne`: keep the candidate with the higher
score, the earlier one on ties. -/
def extractStep (q : Str) (acc : Option (Str × Score)) (c : Str) : Option (Str × Score) :=
  match acc with
  | none => some (c, fuzzScore q c)
  | some (b, s) => if scoreLt s (fuzzScore q c) then some (c, fuzzScore q c) else some (b, s)

/-- `rapidfuzz.process.extractOne(query, choices, scorer=fuzz.ratio)`:
scan the choices, keep the first one achieving the maximum score;
`none` exactly when the choice list is empty. -/
def extractOne (q : Str) (choices : List Str) : Option (Str × Score) :=
  choices.foldl (extractStep q) none

/-- The Registry (`MetaPokemon`): the ordered small meta list used for
fuzzy corrections and the lowercase whitelist set used for protection.
(`meta_map` of the source is keyed by the lowercased meta names; only
key membership is ever consulted, so it is represented by
`meta_map_keys` below.) -/
structure MetaPokemon where
  meta_names : List Str
  whitelist_names_lower : List Str
deriving Repr, DecidableEq

/-- The key set of `meta_map`: the lowercased meta names. -/
def meta_map_keys (m : MetaPokemon) : List Str := m.meta_names.map lowerStr

/-- `MetaPokemon.best_unigram_match(token, threshold)`.
The source first returns `(None, 0)` on an empty meta list and then
calls `extractOne`, which returns `None` only on an empty list; the two
guards collapse into the single `none` branch here. -/
def best_unigram_match (m : MetaPokemon) (token : Str) (threshold : Score) : Option Str × Score :=
  match extractOne token m.meta_names with
  | none => (none, scoreOfNat 0)
  | some (best, score) =>
    if scoreLt score threshold then (none, score) else (some best, score)

/-- `MetaPokemon.best_bigram_match(join_token, threshold)` — the source
body is identical to the unigram one. -/
def best_bigram_match (m : MetaPokemon) (join_token : Str) (threshold : Score) : Option Str × Score :=
  match extractOne join_token m.meta_names with
  | none => (none, scoreOfNat 0)
  | some (best, score) =>
    if scoreLt score threshold then (none, score) else (some best, score)

/-- Calling `best_unigram_match` without a threshold argument: the
declared default is `threshold: int = 80`. -/
def best_unigram_match_default (m : MetaPokemon) (token : Str) : Option Str × Score :=
  best_unigram_match m token (scoreOfNat 80)

/-- Calling `best_bigram_match` without a threshold argument: the
declared default is `threshold: int = 80`. -/
def best_bigram_match_default (m : MetaPokemon) (join_token : Str) : Option Str × Score :=
  best_bigram_match m join_token (scoreOfNat 80)

/-- The fixed `DO_NOT_FIX_UNIGRAMS` exception set (case-sensitive). -/
def DO_NOT_FIX_UNIGRAMS : List Str :=
  [strL r"Dance", strL r"Punch", strL r"Slide", strL r"Rock", strL r"Beam",
   strL r"Wave", strL r"Blast", strL r"Kick", strL r"Ball", strL r"Throw",
   strL r"Storm", strL r"Wind", strL r"Spin", strL r"Hit", strL r"Thunder",
   strL r"Trick", strL r"Room", strL r"Dragon", strL r"Draco", strL r"Grass",
   strL r"Fire"]

/-- A token produced by `WORD_RE.finditer`: character span (half open)
and matched text. -/
structure Token where
  start : Nat
  stop : Nat
  text : Str
deriving Repr, DecidableEq

/-- Scanner for `WORD_RE.finditer(line)`: at each position, a maximal
run `[A-Za-z][A-Za-z0-9'-]*` becomes a token; other characters are
skipped. `p` is the absolute position of the head of the remaining
input. -/
def tokAux : Nat → Str → Nat → List Token
  | 0, _, _ => []
  | _ + 1, [], _ => []
  | k + 1, c :: rest, p =>
    if isWordStart c then
      let body := rest.takeWhile isWordChar
      ⟨p, p + body.length + 1, c :: body⟩ ::
        tokAux k (rest.drop body.length) (p + body.length + 1)
    else
      tokAux k rest (p + 1)

/-- `list(WORD_RE.finditer(line))` with spans and texts.  The scanner
consumes at least one character per step, so fuel `line.length`
suffices. -/
def tokenize (line : Str) : List Token := tokAux line.length line 0

/-- A replacement over a token-index range: `(token_start_index,
token_end_index, replacement_text)` — the half-open range of the
source. The same shape is reused for character-offset replacements. -/
abbrev Repl := Nat × Nat × Str

/-- Sentence-boundary characters checked between the two tokens of a
candidate bigram: any of `.?!;` or newline. -/
def isBoundaryChar (c : Char) : Bool :=
  c == '.' || c == '?' || c == '!' || c == ';' || c == '\n'

/-- `abs(len(a) - len(b))` on naturals. -/
def natDist (a b : Nat) : Nat := max a b - min a b

/-- A default token for the total list indexing below; the source
indexes the token list directly and every index used is in bounds. -/
def dummyToken : Token := ⟨0, 0, []⟩

/-- The per-candidate decision of the 2-gram stage: all guards of one
iteration of the bigram loop except the `used` check, in source order;
`some best` is an accepted replacement text for tokens `i, i+1`. -/
def bigramAccept (line : Str) (m : MetaPokemon) (toks : List Token) (i : Nat) : Option Str :=
  let t1 := toks.getD i dummyToken
  let t2 := toks.getD (i + 1) dummyToken
  let w1 := t1.text
  let w2 := t2.text
  if ¬ (is_title_like w1 && is_title_like w2) then none
  else
    let base1 := stripBase w1
    let base2 := stripBase w2
    if lowerStr base1 ∈ m.whitelist_names_lower then none
    else if lowerStr base2 ∈ m.whitelist_names_lower then none
    else
      let between := (line.drop t1.stop).take (t2.start - t1.stop)
      if between.any isBoundaryChar then none
      else
        let join := base1 ++ base2
        match best_bigram_match m join (scoreOfNat 90) with
        | (none, _) => none
        | (some best, _) =>
          -- `if not best: continue` — the empty string is falsy too
          if best = [] then none
          else if (best.headD ' ').toLower ≠ (join.headD ' ').toLower then none
          else if 3 < natDist best.length join.length then none
          else some best

/-- The 2-gram stage of `fix_line_with_meta`: the loop
`for i in range(n - 1)` carrying the `used` index set and the
accumulated replacement list, structurally recursive on fuel
(`toks.length` suffices: the loop body advances `i` by one). -/
def bigramAux (line : Str) (m : MetaPokemon) (toks : List Token) :
    Nat → Nat → List Nat → List Repl → List Repl
  | 0, _, _, acc => acc
  | k + 1, i, used, acc =>
    if i + 1 < toks.length then
      if i ∈ used then bigramAux line m toks k (i + 1) used acc
      else
        match bigramAccept line m toks i with
        | none => bigramAux line m toks k (i + 1) used acc
        | some best =>
          bigramAux line m toks k (i + 1) (i :: (i + 1) :: used) (acc ++ [(i, i + 2, best)])
    else acc

/-- `i in occupied` where `occupied` collects `range(s, e)` of every
replacement recorded so far. -/
def inOccupied (repls : List Repl) (i : Nat) : Bool :=
  repls.any (fun r => r.1 ≤ i && i < r.2.1)

/-- The per-candidate decision of the 1-gram stage: all guards of one
iteration of the unigram loop except the `occupied` check, in source
order; `some best` is an accepted replacement text for token `i`. -/
def unigramAccept (m : MetaPokemon) (toks : List Token) (i : Nat) : Option Str :=
  let w := (toks.getD i dummyToken).text
  if w.length < 4 then none
  else if ¬ is_title_like w then none
  else
    let base := stripBase w
    if lowerStr base ∈ m.whitelist_names_lower then none
    else if '-' ∈ base then
      -- every path of the hyphen branch leaves the token untouched
      if (pySplit '-' base).any (fun part => part ∈ DO_NOT_FIX_UNIGRAMS) then none
      else if lowerStr base ∉ meta_map_keys m then none
      else none
    else if base ∈ DO_NOT_FIX_UNIGRAMS then none
    else if lowerStr base ∈ meta_map_keys m then none
    else
      match best_unigram_match m base (scoreOfNat 75) with
      | (none, _) => none
      | (some best, _) =>
        -- `if not best or best == base: continue`
        if best = [] ∨ best = base then none
        else if (best.headD ' ').toLower ≠ (base.headD ' ').toLower then none
        else if 2 < natDist best.length base.length then none
        else some best

/-- The 1-gram stage of `fix_line_with_meta`: the loop
`for i, w in enumerate(words)`, skipping indices occupied by bigram
replacements, appending accepted single-token replacements to the
replacement list; structurally recursive on fuel (`toks.length`
suffices). -/
def unigramAux (m : MetaPokemon) (toks : List Token) (occ : List Repl) :
    Nat → Nat → List Repl → List Repl
  | 0, _, acc => acc
  | k + 1, i, acc =>
    if i < toks.length then
      if inOccupied occ i then unigramAux m toks occ k (i + 1) acc
      else
        match unigramAccept m toks i with
        | none => unigramAux m toks occ k (i + 1) acc
        | some best => unigramAux m toks occ k (i + 1) (acc ++ [(i, i + 1, best)])
    else acc

/-- The full replacement list of `fix_line_with_meta`: the bigram pass
runs first; `occupied` is computed from its output; then the unigram
pass appends to the same list. -/
def replacementsOf (line : Str) (m : MetaPokemon) : List Repl :=
  let toks := tokenize line
  let big := bigramAux line m toks toks.length 0 [] []
  unigramAux m toks big toks.length 0 big

/-- Token-index replacement ranges turned into character spans:
`(tokens[s_idx].start(), tokens[e_idx - 1].end(), new_text)`.
(The source indexes the token list directly; indices are always in
bounds there, `getD` with a dummy token models that total access.) -/
def charReplsOf (line : Str) (m : MetaPokemon) : List Repl :=
  let toks := tokenize line
  (replacementsOf line m).map
    (fun r => ((toks.getD r.1 ⟨0, 0, []⟩).start, (toks.getD (r.2.1 - 1) ⟨0, 0, []⟩).stop, r.2.2))

/-- Stable insertion into a list kept in descending order of start
offset (`char_repls.sort(key=..., reverse=True)`; the accepted spans
always have pairwise distinct starts, so any tie policy agrees with
the Python stable sort on reachable inputs). -/
def insertDesc (r : Repl) : List Repl → List Repl
  | [] => [r]
  | a :: l => if r.1 ≤ a.1 then a :: insertDesc r l else r :: a :: l

/-- Sort replacements by start offset, descending. -/
def sortDesc : List Repl → List Repl
  | [] => []
  | r :: l => insertDesc r (sortDesc l)

/-- One substitution step: `fixed = fixed[:start] + new_text + fixed[end:]`. -/
def applyRepl (fixed : Str) (r : Repl) : Str :=
  fixed.take r.1 ++ r.2.2 ++ fixed.drop r.2.1

/-- `fix_line_with_meta(line, meta)`: tokenize, run both passes, turn
token ranges into character spans, sort by start descending and
substitute right to left. -/
def fix_line_with_meta (line : Str) (m : MetaPokemon) : Str :=
  let toks := tokenize line
  if toks = [] then line
  else
    let repls := replacementsOf line m
    if repls = [] then line
    else (sortDesc (charReplsOf line m)).foldl applyRepl line

/-- One record of a reference JSON source: a dict whose `en` key may be
absent; `none` models both an absent key and JSON `null` (`item.get("en")`). -/
structure PokeItem where
  en : Option Str
deriving Repr, DecidableEq

/-- A parsed reference JSON document: the top-level `pokemon` key may
be absent (`meta_data.get("pokemon", [])`). -/
structure PokeDoc where
  pokemon : Option (List PokeItem)
deriving Repr, DecidableEq

/-- The name-collection loop of `MetaPokemon.__init__`: iterate the
`pokemon` list (defaulting to empty when the key is missing), skipping
items whose `en` is absent or empty (`if not en_name: continue`). -/
def loadNames (doc : PokeDoc) : List Str :=
  (doc.pokemon.getD []).filterMap
    (fun it =>
      match it.en with
      | none => none
      | some nm => if nm = [] then none else some nm)

/-- `MetaPokemon.__init__(meta_json_path, whitelist_json_path)` after
JSON parsing: build the meta name list; the whitelist is the lowercased
names of the whitelist document when given, otherwise the key set of
`meta_map` (the lowercased meta names).  The construction is total —
the source contains no `raise`. -/
def mkMetaPokemon (metaDoc : PokeDoc) (wlDoc : Option PokeDoc) : MetaPokemon :=
  let metaNames := loadNames metaDoc
  match wlDoc with
  | none => ⟨metaNames, metaNames.map lowerStr⟩
  | some d => ⟨metaNames, (loadNames d).map lowerStr⟩

/-- `r` covers token (or character) index `i`: `i` lies in the
half-open range `[r.1, r.2.1)`. -/
def replCovers (r : Repl) (i : Nat) : Prop := r.1 ≤ i ∧ i < r.2.1

instance (r : Repl) (i : Nat) : Decidable (replCovers r i) := by
  unfold replCovers
  infer_instance

/-- Two replacements are disjoint: no index is covered by both. -/
def ReplDisjoint (a b : Repl) : Prop := ∀ i : Nat, ¬ (replCovers a i ∧ replCovers b i)

/-- Right-to-left view of the rewriting: apply the rightmost (first in
descending order) replacement and recurse on the untouched prefix. -/
def rebuildDesc (line : Str) : List Repl → Str
  | [] => line
  | r :: rest => rebuildDesc (line.take r.1) rest ++ r.2.2 ++ line.drop r.2.1

/-- Left-to-right decomposition of the rewritten line along an
ascending span list: every character outside the spans appears as a
literal slice of the input, in input order, with the replacement texts
interleaved. `pos` is the next input offset not yet emitted. -/
def rebuildAsc (line : Str) : Nat → List Repl → Str
  | pos, [] => line.drop pos
  | pos, r :: rest => (line.drop pos).take (r.1 - pos) ++ r.2.2 ++ rebuildAsc line r.2.1 rest

/-- Output offset of input offset `a` under an ascending span list
whose spans all avoid `a`: slide over each span that ends at or before
`a`, replacing its width by its text length. -/
def shiftedPos : Nat → List Repl → Nat → Nat
  | pos, [], a => a - pos
  | pos, r :: rest, a =>
    if r.2.1 ≤ a then (r.1 - pos) + r.2.2.length + shiftedPos r.2.1 rest a else a - pos

/-- The score-maximum update: keep the larger of the current maximum
and the score of the next name (first wins on ties, as in
`extractOne`). -/
def scoreUpd (q : Str) (s : Score) (n : Str) : Score :=
  if scoreLt s (fuzzScore q n) then fuzzScore q n else s

/-- The maximum `fuzz.ratio` score of a query against a name list
(0 for the empty list, matching the score reported by the matcher
there). -/
def maxScoreOf (q : Str) : List Str → Score
  | [] => scoreOfNat 0
  | c :: cs => cs.foldl (scoreUpd q) (fuzzScore q c)

/-! ## Theorems -/

/-- C10: the unigram matcher and the bigram matcher compute the same
function — for every registry, candidate string and threshold,
`best_unigram_match` and `best_bigram_match` return the same
(name, score) pair; the bigram operation has no matching logic of its
own beyond the threshold its caller passes. -/
theorem best_unigram_eq_best_bigram (m : MetaPokemon) (q : Str) (t : Score) :
    best_unigram_match m q t = best_bigram_match m q t := rfl

/-- C7 (counterexample): the matcher defaults are not 75/90 — calling
`best_unigram_match` without a threshold rejects a 75-scoring match
(`lcs(Abc, Abcde) = 3`, score `600/8 = 75 < 80`), and calling
`best_bigram_match` without a threshold accepts an 87.5-scoring match
that cutoff 90 rejects. -/
theorem default_thresholds_cex :
    best_unigram_match_default ⟨[strL r"Abcde"], []⟩ (strL r"Abc") ≠
      best_unigram_match ⟨[strL r"Abcde"], []⟩ (strL r"Abc") (scoreOfNat 75) ∧
    best_bigram_match_default ⟨[strL r"Abcdefghi"], []⟩ (strL r"Abcdefg") ≠
      best_bigram_match ⟨[strL r"Abcdefghi"], []⟩ (strL r"Abcdefg") (scoreOfNat 90) := by
  decide

/-- C7 (amended): both matcher operations declare the same default
threshold, 80; the cutoffs 75 and 90 of the spec are passed explicitly
by the normalizer at its two call sites, they are not the defaults. -/
theorem default_threshold_is_80 (m : MetaPokemon) (q : Str) :
    best_unigram_match_default m q = best_unigram_match m q (scoreOfNat 80) ∧
    best_bigram_match_default m q = best_bigram_match m q (scoreOfNat 80) :=
  ⟨rfl, rfl⟩

/-- C5 (code bug): on the line of Scenario B with meta `Suicune` and a
whitelist containing neither `sweet` nor `coon`, the normalizer
returns the line unchanged — `fuzz.ratio(SweetCoon, Suicune) = 25`
is far below the bigram cutoff 90 (with 9 and 7 characters a score of
90 is not even reachable), so the merge promised by the docstring and
the spec never fires. -/
theorem scenario_b_line_unchanged :
    fix_line_with_meta (strL r"Sweet Coon surfed")
        ⟨[strL r"Suicune"], [strL r"suicune"]⟩ = strL r"Sweet Coon surfed" ∧
    fix_line_with_meta (strL r"Sweet Coon surfed")
        ⟨[strL r"Suicune"], [strL r"suicune"]⟩ ≠ strL r"Suicune surfed" ∧
    fuzzScore (strL r"SweetCoon") (strL r"Suicune") = ⟨400, 16⟩ := by
  decide

/-- C1 (counterexample): the normalizer is not idempotent.  With meta
names `Abcd` and `AbcdEfg` and an empty whitelist, the first pass over
`Abcf Efg` unigram-corrects `Abcf` to `Abcd`; the second application
then bigram-merges `Abcd Efg` into `AbcdEfg`, so applying the
normalizer twice differs from applying it once. -/
theorem fix_line_not_idempotent_cex :
    fix_line_with_meta
        (fix_line_with_meta (strL r"Abcf Efg") ⟨[strL r"Abcd", strL r"AbcdEfg"], []⟩)
        ⟨[strL r"Abcd", strL r"AbcdEfg"], []⟩ ≠
      fix_line_with_meta (strL r"Abcf Efg") ⟨[strL r"Abcd", strL r"AbcdEfg"], []⟩ := by
  decide

/-- C1 (amended): the normalizer is idempotent at its fixed points —
once a line is left unchanged (the spec's own proviso: all alterable
tokens already whitelisted), applying it again leaves it unchanged;
unconditional idempotence fails (see the counterexample). -/
theorem fix_line_idempotent_at_fixed_point (line : Str) (m : MetaPokemon)
    (h : fix_line_with_meta line m = line) :
    fix_line_with_meta (fix_line_with_meta line m) m = fix_line_with_meta line m := by
  rw [h]
  exact h

/-- Witness for the amended C1 at a concrete fixed point. -/
theorem fix_line_idempotent_at_fixed_point_witness :
    fix_line_with_meta (strL r"hello world") ⟨[strL r"Suicune"], []⟩ = strL r"hello world" ∧
    fix_line_with_meta (fix_line_with_meta (strL r"hello world") ⟨[strL r"Suicune"], []⟩)
        ⟨[strL r"Suicune"], []⟩ =
      fix_line_with_meta (strL r"hello world") ⟨[strL r"Suicune"], []⟩ :=
  ⟨by decide, fix_line_idempotent_at_fixed_point _ _ (by decide)⟩

/-- C4 (counterexample): a reference source whose top level lacks the
`pokemon` collection does not make Registry construction fail — the
constructor is total, `dict.get("pokemon", [])` yields the empty list,
and the resulting registry is empty; a later line is then processed
normally (no failure before or during line processing). -/
theorem registry_missing_collection_cex :
    mkMetaPokemon ⟨none⟩ (some ⟨none⟩) = ⟨[], []⟩ ∧
    mkMetaPokemon ⟨none⟩ none = ⟨[], []⟩ ∧
    fix_line_with_meta (strL r"Terranitar used Stone Edge") (mkMetaPokemon ⟨none⟩ none) =
      strL r"Terranitar used Stone Edge" := by
  decide

/-- C4 (amended): Registry construction never raises; a source missing
the top-level `pokemon` collection degrades to an empty meta list (and,
when no whitelist source is given, an empty whitelist), it is not
fatal. -/
theorem mkMetaPokemon_missing_collection_degrades (d : PokeDoc) (w : Option PokeDoc)
    (h : d.pokemon = none) :
    (mkMetaPokemon d w).meta_names = [] ∧
    (w = none → (mkMetaPokemon d w).whitelist_names_lower = []) := by
  cases d
  cases h
  cases w <;> simp [mkMetaPokemon, loadNames]

/-- Witness for the amended C4 at a concrete degenerate source. -/
theorem mkMetaPokemon_missing_collection_degrades_witness :
    (PokeDoc.mk none).pokemon = none ∧
    ((mkMetaPokemon ⟨none⟩ (some ⟨none⟩)).meta_names = [] ∧
      (some (PokeDoc.mk none) = none →
        (mkMetaPokemon ⟨none⟩ (some ⟨none⟩)).whitelist_names_lower = [])) :=
  ⟨rfl, mkMetaPokemon_missing_collection_degrades ⟨none⟩ (some ⟨none⟩) rfl⟩

/-- C8 (counterexample): a token whose stripped base contains a hyphen
can be rewritten — the bigram pass has no hyphen guard, so `Ab-cd`
(with `Ef` following) is consumed by a bigram merge into `AbcdEf`:
the hyphen disappears from the output entirely. -/
theorem hyphen_token_replaced_cex :
    '-' ∈ stripBase ((tokenize (strL r"Ab-cd Ef")).getD 0 dummyToken).text ∧
    fix_line_with_meta (strL r"Ab-cd Ef") ⟨[strL r"AbcdEf"], []⟩ = strL r"AbcdEf" ∧
    '-' ∉ fix_line_with_meta (strL r"Ab-cd Ef") ⟨[strL r"AbcdEf"], []⟩ ∧
    (∃ r ∈ replacementsOf (strL r"Ab-cd Ef") ⟨[strL r"AbcdEf"], []⟩, replCovers r 0) := by
  decide

/-! ### Matcher lemmas (for the no-match characterization) -/

/-- `fuzz.ratio` always has a positive denominator. -/
theorem fuzzScore_den_pos (a b : Str) : 0 < (fuzzScore a b).den := by
  unfold fuzzScore scoreOfNat
  split
  · exact Nat.one_pos
  · exact Nat.pos_of_ne_zero (by assumption)

/-- `scoreLt` is asymmetric. -/
theorem scoreLt_asymm {a b : Score} (h : scoreLt a b = true) : scoreLt b a = false := by
  simp only [scoreLt, decide_eq_true_eq] at h
  simp only [scoreLt, decide_eq_false_iff_not, not_lt]
  omega

/-- `scoreLt` is irreflexive. -/
theorem scoreLt_irrefl (a : Score) : scoreLt a a = false := by
  simp [scoreLt]

/-- Transitivity of the non-strict order `scoreLt _ _ = false`
(read `scoreLt b a = false` as `a ≤ b`), for a positive middle
denominator. -/
theorem scoreLt_false_trans {a b c : Score} (hb : 0 < b.den)
    (h1 : scoreLt b a = false) (h2 : scoreLt c b = false) : scoreLt c a = false := by
  simp only [scoreLt, decide_eq_false_iff_not, not_lt] at h1 h2 ⊢
  have h1' := Nat.mul_le_mul_right c.den h1
  have h2' := Nat.mul_le_mul_right a.den h2
  have : a.num * c.den * b.den ≤ c.num * a.den * b.den := by
    calc a.num * c.den * b.den = a.num * b.den * c.den := by ring
    _ ≤ b.num * a.den * c.den := h1'
    _ = b.num * c.den * a.den := by ring
    _ ≤ c.num * b.den * a.den := h2'
    _ = c.num * a.den * b.den := by ring
  exact Nat.le_of_mul_le_mul_right this hb

/-- The score fold keeps a positive denominator. -/
theorem foldUpd_den_pos (q : Str) (cs : List Str) (s : Score) (hs : 0 < s.den) :
    0 < (cs.foldl (scoreUpd q) s).den := by
  induction cs generalizing s with
  | nil => exact hs
  | cons c cs ih =>
    simp only [List.foldl_cons]
    apply ih
    unfold scoreUpd
    split
    · exact fuzzScore_den_pos q c
    · exact hs

/-- One update step never decreases the running maximum. -/
theorem scoreUpd_not_lt (q : Str) (s : Score) (n : Str) :
    scoreLt (scoreUpd q s n) s = false ∧ scoreLt (scoreUpd q s n) (fuzzScore q n) = false := by
  unfold scoreUpd
  split
  · exact ⟨scoreLt_asymm (by assumption), scoreLt_irrefl _⟩
  · rename_i h
    exact ⟨scoreLt_irrefl _, Bool.eq_false_iff.mpr (fun hh => h (by simp [hh]))⟩

/-- The score fold is an upper bound of its initial value. -/
theorem foldUpd_not_lt_init (q : Str) (cs : List Str) (s : Score) (hs : 0 < s.den) :
    scoreLt (cs.foldl (scoreUpd q) s) s = false := by
  induction cs generalizing s with
  | nil => exact scoreLt_irrefl s
  | cons c cs ih =>
    simp only [List.foldl_cons]
    have hden : 0 < (scoreUpd q s c).den := by
      unfold scoreUpd
      split
      · exact fuzzScore_den_pos q c
      · exact hs
    exact scoreLt_false_trans hden (scoreUpd_not_lt q s c).1 (ih _ hden)

/-- The score fold is an upper bound of every scanned score. -/
theorem foldUpd_not_lt_mem (q : Str) (cs : List Str) (s : Score) (hs : 0 < s.den) :
    ∀ x ∈ cs, scoreLt (cs.foldl (scoreUpd q) s) (fuzzScore q x) = false := by
  induction cs generalizing s with
  | nil => intro x hx; cases hx
  | cons c cs ih =>
    intro x hx
    have hden : 0 < (scoreUpd q s c).den := by
      unfold scoreUpd
      split
      · exact fuzzScore_den_pos q c
      · exact hs
    rcases List.mem_cons.mp hx with hx | hx
    · subst hx
      simp only [List.foldl_cons]
      exact scoreLt_false_trans hden (scoreUpd_not_lt q s x).2
        (foldUpd_not_lt_init q cs _ hden)
    · simpa only [List.foldl_cons] using ih _ hden x hx

/-- Folding `extractOne`'s step from a `some` accumulator yields a
`some` whose score is the score fold and whose name attains it. -/
theorem extractFold_some (q : Str) (cs : List Str) (b : Str) (s : Score)
    (hb : s = fuzzScore q b) :
    ∃ b', cs.foldl (extractStep q) (some (b, s)) = some (b', cs.foldl (scoreUpd q) s) ∧
      (b' = b ∨ b' ∈ cs) ∧ cs.foldl (scoreUpd q) s = fuzzScore q b' := by
  induction cs generalizing b s with
  | nil => exact ⟨b, rfl, Or.inl rfl, hb⟩
  | cons c cs ih =>
    simp only [List.foldl_cons]
    by_cases h : scoreLt s (fuzzScore q c) = true
    · obtain ⟨b', h1, h2, h3⟩ := ih c (fuzzScore q c) rfl
      have hstep : extractStep q (some (b, s)) c = some (c, fuzzScore q c) := by
        rw [extractStep, if_pos h]
      have hupd : scoreUpd q s c = fuzzScore q c := by rw [scoreUpd, if_pos h]
      rw [hstep, hupd]
      refine ⟨b', h1, ?_, h3⟩
      rcases h2 with h2 | h2
      · exact Or.inr (h2 ▸ List.mem_cons_self c cs)
      · exact Or.inr (List.mem_cons_of_mem _ h2)
    · obtain ⟨b', h1, h2, h3⟩ := ih b s hb
      have hstep : extractStep q (some (b, s)) c = some (b, s) := by
        rw [extractStep, if_neg h]
      have hupd : scoreUpd q s c = s := by rw [scoreUpd, if_neg h]
      rw [hstep, hupd]
      refine ⟨b', h1, ?_, h3⟩
      rcases h2 with h2 | h2
      · exact Or.inl h2
      · exact Or.inr (List.mem_cons_of_mem _ h2)

/-- `extractOne` on a nonempty list returns the maximum score together
with a name attaining it. -/
theorem extractOne_cons (q : Str) (c : Str) (cs : List Str) :
    ∃ b, extractOne q (c :: cs) = some (b, maxScoreOf q (c :: cs)) ∧
      b ∈ c :: cs ∧ maxScoreOf q (c :: cs) = fuzzScore q b := by
  unfold extractOne maxScoreOf
  simp only [List.foldl_cons]
  obtain ⟨b', h1, h2, h3⟩ := extractFold_some q cs c (fuzzScore q c) rfl
  refine ⟨b', h1, ?_, h3⟩
  rcases h2 with h2 | h2
  · exact h2 ▸ List.mem_cons_self c cs
  · exact List.mem_cons_of_mem _ h2

/-- The maximum score bounds every individual score from above. -/
theorem maxScoreOf_not_lt (q c : Str) (cs : List Str) :
    ∀ x ∈ c :: cs, scoreLt (maxScoreOf q (c :: cs)) (fuzzScore q x) = false := by
  intro x hx
  rcases List.mem_cons.mp hx with hx | hx
  · subst hx
    exact foldUpd_not_lt_init q cs _ (fuzzScore_den_pos q x)
  · exact foldUpd_not_lt_mem q cs _ (fuzzScore_den_pos q c) x hx

/-- C6: the fuzzy matcher returns "no match" (a `none` name) exactly
when the meta list is empty or the maximum score over all meta names is
strictly below the threshold; otherwise it returns a meta name
achieving the maximum score.  The same holds for the bigram operation,
which is the same function. -/
theorem matcher_no_match_iff (m : MetaPokemon) (q : Str) (t : Score) :
    ((best_unigram_match m q t).1 = none ↔
      m.meta_names = [] ∨ scoreLt (maxScoreOf q m.meta_names) t = true) ∧
    (∀ nm, (best_unigram_match m q t).1 = some nm →
      nm ∈ m.meta_names ∧ fuzzScore q nm = maxScoreOf q m.meta_names ∧
        ∀ c ∈ m.meta_names, scoreLt (maxScoreOf q m.meta_names) (fuzzScore q c) = false) ∧
    best_bigram_match m q t = best_unigram_match m q t := by
  obtain ⟨names, wl⟩ := m
  cases names with
  | nil =>
    refine ⟨?_, ?_, rfl⟩
    · simp [best_unigram_match, extractOne]
    · intro nm h
      simp [best_unigram_match, extractOne] at h
  | cons c cs =>
    obtain ⟨b, he, hmem, hscore⟩ := extractOne_cons q c cs
    by_cases hlt : scoreLt (maxScoreOf q (c :: cs)) t = true
    · refine ⟨?_, ?_, rfl⟩
      · simp only [best_unigram_match, he, hlt, if_pos]
        simp [hlt]
      · intro nm h
        simp only [best_unigram_match, he, hlt, if_pos] at h
        cases h
    · have hlt' : scoreLt (maxScoreOf q (c :: cs)) t = false :=
        Bool.eq_false_iff.mpr (fun hh => hlt hh)
      refine ⟨?_, ?_, rfl⟩
      · simp only [best_unigram_match, he, hlt', Bool.false_eq_true, if_false]
        simp [hlt]
      · intro nm h
        simp only [best_unigram_match, he, hlt', Bool.false_eq_true, if_false] at h
        obtain rfl : b = nm := by simpa using h
        exact ⟨hmem, hscore.symm, maxScoreOf_not_lt q c cs⟩

/-- Witness for C6 at a concrete registry, query and threshold. -/
theorem matcher_no_match_iff_witness :
    ((best_unigram_match ⟨[strL r"Suicune"], []⟩ (strL r"Sweet") (scoreOfNat 75)).1 = none ↔
      ([strL r"Suicune"] : List Str) = [] ∨
        scoreLt (maxScoreOf (strL r"Sweet") [strL r"Suicune"]) (scoreOfNat 75) = true) ∧
    (∀ nm,
      (best_unigram_match ⟨[strL r"Suicune"], []⟩ (strL r"Sweet") (scoreOfNat 75)).1 = some nm →
      nm ∈ ([strL r"Suicune"] : List Str) ∧
        fuzzScore (strL r"Sweet") nm = maxScoreOf (strL r"Sweet") [strL r"Suicune"] ∧
        ∀ c ∈ ([strL r"Suicune"] : List Str),
          scoreLt (maxScoreOf (strL r"Sweet") [strL r"Suicune"]) (fuzzScore (strL r"Sweet") c) =
            false) ∧
    best_bigram_match ⟨[strL r"Suicune"], []⟩ (strL r"Sweet") (scoreOfNat 75) =
      best_unigram_match ⟨[strL r"Suicune"], []⟩ (strL r"Sweet") (scoreOfNat 75) :=
  matcher_no_match_iff ⟨[strL r"Suicune"], []⟩ (strL r"Sweet") (scoreOfNat 75)

/-! ### Tokenizer lemmas -/

/-- `List.getD` agrees with `List.get` in bounds. -/
theorem getD_eq_get {α : Type} (l : List α) (i : Nat) (d : α) (h : i < l.length) :
    l.getD i d = l.get ⟨i, h⟩ := by
  simp [List.getD_eq_getElem?_getD, List.getElem?_eq_getElem h]

/-- All structural facts about the scanner output: every token span is
nonempty, within the scanned suffix, carries its own slice of the
input as text, and the spans are ordered left to right. -/
theorem tokAux_facts (k : Nat) : ∀ (l : Str) (p : Nat),
    (∀ t ∈ tokAux k l p,
      p ≤ t.start ∧ t.start < t.stop ∧ t.stop ≤ p + l.length ∧
      t.text.length = t.stop - t.start ∧
      t.text = (l.drop (t.start - p)).take (t.stop - t.start)) ∧
    List.Pairwise (fun a b => a.stop ≤ b.start) (tokAux k l p) := by
  induction k with
  | zero =>
    intro l p
    constructor
    · intro t ht
      simp [tokAux] at ht
    · simp [tokAux]
  | succ k ih =>
    intro l p
    cases l with
    | nil =>
      constructor
      · intro t ht
        simp [tokAux] at ht
      · simp [tokAux]
    | cons c rest =>
      by_cases hw : isWordStart c = true
      · have hbody : rest.takeWhile isWordChar <+: rest :=
          ⟨rest.dropWhile isWordChar, List.takeWhile_append_dropWhile isWordChar rest⟩
        have hblen : (rest.takeWhile isWordChar).length ≤ rest.length := hbody.length_le
        obtain ⟨hrec1, hrec2⟩ := ih (rest.drop (rest.takeWhile isWordChar).length)
          (p + (rest.takeWhile isWordChar).length + 1)
        have heq : tokAux (k + 1) (c :: rest) p =
            ⟨p, p + (rest.takeWhile isWordChar).length + 1, c :: rest.takeWhile isWordChar⟩ ::
              tokAux k (rest.drop (rest.takeWhile isWordChar).length)
                (p + (rest.takeWhile isWordChar).length + 1) := by
          simp [tokAux, hw]
        rw [heq]
        constructor
        · intro t ht
          rcases List.mem_cons.mp ht with ht | ht
          · subst ht
            refine ⟨Nat.le_refl _, ?_, ?_, ?_, ?_⟩
            · show p < p + (rest.takeWhile isWordChar).length + 1
              omega
            · show p + (rest.takeWhile isWordChar).length + 1 ≤ p + (c :: rest).length
              simp only [List.length_cons]
              omega
            · show (c :: rest.takeWhile isWordChar).length =
                p + (rest.takeWhile isWordChar).length + 1 - p
              simp only [List.length_cons]
              omega
            · show c :: rest.takeWhile isWordChar =
                ((c :: rest).drop (p - p)).take (p + (rest.takeWhile isWordChar).length + 1 - p)
              have h1 : p - p = 0 := by omega
              have h2 : p + (rest.takeWhile isWordChar).length + 1 - p =
                  (rest.takeWhile isWordChar).length + 1 := by omega
              rw [h1, h2, List.drop_zero, List.take_succ_cons,
                ← List.prefix_iff_eq_take.mp hbody]
          · obtain ⟨h1, h2, h3, h4, h5⟩ := hrec1 t ht
            refine ⟨by omega, h2, ?_, h4, ?_⟩
            · simp only [List.length_drop] at h3
              simp only [List.length_cons]
              omega
            · rw [h5]
              have hs : t.start - p = (t.start - p - 1) + 1 := by omega
              rw [hs, List.drop_succ_cons]
              have hd : (rest.drop (rest.takeWhile isWordChar).length).drop
                    (t.start - (p + (rest.takeWhile isWordChar).length + 1)) =
                  rest.drop (t.start - p - 1) := by
                rw [List.drop_drop]
                congr 1
                omega
              rw [hd]
        · constructor
          · intro t ht
            exact (hrec1 t ht).1
          · exact hrec2
      · have heq : tokAux (k + 1) (c :: rest) p = tokAux k rest (p + 1) := by
          simp [tokAux, hw]
        rw [heq]
        obtain ⟨h1, h2⟩ := ih rest (p + 1)
        refine ⟨?_, h2⟩
        intro t ht
        obtain ⟨ha, hb, hc, hd, he⟩ := h1 t ht
        refine ⟨by omega, hb, ?_, hd, ?_⟩
        · simp only [List.length_cons]
          omega
        · rw [he]
          have hs : t.start - p = (t.start - (p + 1)) + 1 := by omega
          rw [hs, List.drop_succ_cons]

/-- Token facts specialized to `tokenize`. -/
theorem tokenize_facts (line : Str) :
    (∀ t ∈ tokenize line,
      t.start < t.stop ∧ t.stop ≤ line.length ∧
      t.text.length = t.stop - t.start ∧
      t.text = (line.drop t.start).take (t.stop - t.start)) ∧
    List.Pairwise (fun a b => a.stop ≤ b.start) (tokenize line) := by
  obtain ⟨h1, h2⟩ := tokAux_facts line.length line 0
  refine ⟨?_, h2⟩
  intro t ht
  obtain ⟨_, hb, hc, hd, he⟩ := h1 t ht
  exact ⟨hb, by omega, hd, by simpa using he⟩

/-- Ordered token spans, index form: an earlier token ends no later
than a later one starts. -/
theorem tokenize_order (line : Str) (i j : Nat)
    (hi : i < (tokenize line).length) (hj : j < (tokenize line).length) (hij : i < j) :
    ((tokenize line).get ⟨i, hi⟩).stop ≤ ((tokenize line).get ⟨j, hj⟩).start :=
  List.pairwise_iff_get.mp (tokenize_facts line).2 ⟨i, hi⟩ ⟨j, hj⟩ hij

/-! ### Pass invariants -/

/-- An accepted bigram candidate has both stripped bases outside the
whitelist (guards 1 of the bigram stage). -/
theorem bigramAccept_facts (line : Str) (m : MetaPokemon) (toks : List Token) (i : Nat)
    (best : Str) (h : bigramAccept line m toks i = some best) :
    lowerStr (stripBase (toks.getD i dummyToken).text) ∉ m.whitelist_names_lower ∧
    lowerStr (stripBase (toks.getD (i + 1) dummyToken).text) ∉ m.whitelist_names_lower := by
  simp only [bigramAccept] at h
  split_ifs at h <;> try cases h
  exact ⟨by assumption, by assumption⟩

/-- An accepted unigram candidate has a stripped base outside the
whitelist and containing no hyphen. -/
theorem unigramAccept_facts (m : MetaPokemon) (toks : List Token) (i : Nat)
    (best : Str) (h : unigramAccept m toks i = some best) :
    lowerStr (stripBase (toks.getD i dummyToken).text) ∉ m.whitelist_names_lower ∧
    '-' ∉ stripBase (toks.getD i dummyToken).text := by
  simp only [unigramAccept] at h
  split_ifs at h <;> try cases h
  exact ⟨by assumption, by assumption⟩

/-- `inOccupied occ i = false` means no recorded range covers `i`. -/
theorem inOccupied_false_iff (occ : List Repl) (i : Nat) :
    inOccupied occ i = false ↔ ∀ r ∈ occ, ¬ replCovers r i := by
  simp [inOccupied, replCovers, List.any_eq_false]

/-- Invariant of the bigram loop: the accumulated replacements are
two-token-wide ranges below the loop index, both their stripped bases
are outside the whitelist, the ranges stay within the token list, and
they are pairwise disjoint. -/
theorem bigramAux_facts (line : Str) (m : MetaPokemon) (toks : List Token) :
    ∀ (k i : Nat) (used : List Nat) (acc : List Repl),
    (∀ r ∈ acc,
      r.2.1 = r.1 + 2 ∧ r.2.1 ≤ toks.length ∧
      lowerStr (stripBase (toks.getD r.1 dummyToken).text) ∉ m.whitelist_names_lower ∧
      lowerStr (stripBase (toks.getD (r.1 + 1) dummyToken).text) ∉ m.whitelist_names_lower) →
    (∀ r ∈ acc, r.2.1 ≤ i + 1 ∧ (r.2.1 = i + 1 → i ∈ used)) →
    List.Pairwise ReplDisjoint acc →
    (∀ r ∈ bigramAux line m toks k i used acc,
      r.2.1 = r.1 + 2 ∧ r.2.1 ≤ toks.length ∧
      lowerStr (stripBase (toks.getD r.1 dummyToken).text) ∉ m.whitelist_names_lower ∧
      lowerStr (stripBase (toks.getD (r.1 + 1) dummyToken).text) ∉ m.whitelist_names_lower) ∧
    List.Pairwise ReplDisjoint (bigramAux line m toks k i used acc) := by
  intro k
  induction k with
  | zero =>
    intro i used acc hok hend hdisj
    exact ⟨hok, hdisj⟩
  | succ k ih =>
    intro i used acc hok hend hdisj
    by_cases hlt : i + 1 < toks.length
    · rw [bigramAux, if_pos hlt]
      by_cases hu : i ∈ used
      · rw [if_pos hu]
        refine ih (i + 1) used acc hok ?_ hdisj
        intro r hr
        obtain ⟨h1, h2⟩ := hend r hr
        exact ⟨by omega, fun hh => by omega⟩
      · rw [if_neg hu]
        cases haccept : bigramAccept line m toks i with
        | none =>
          refine ih (i + 1) used acc hok ?_ hdisj
          intro r hr
          obtain ⟨h1, h2⟩ := hend r hr
          refine ⟨by omega, fun hh => ?_⟩
          exact absurd (h2 (by omega)) hu
        | some best =>
          obtain ⟨hw1, hw2⟩ := bigramAccept_facts line m toks i best haccept
          refine ih (i + 1) (i :: (i + 1) :: used) (acc ++ [(i, i + 2, best)]) ?_ ?_ ?_
          · intro r hr
            rcases List.mem_append.mp hr with hr | hr
            · exact hok r hr
            · rcases List.mem_singleton.mp hr with rfl
              exact ⟨rfl, by show i + 2 ≤ toks.length; omega, hw1, hw2⟩
          · intro r hr
            rcases List.mem_append.mp hr with hr | hr
            · obtain ⟨h1, h2⟩ := hend r hr
              have h3 : r.2.1 ≤ i := by
                rcases Nat.lt_or_ge r.2.1 (i + 1) with hh | hh
                · omega
                · exact absurd (h2 (by omega)) hu
              exact ⟨by omega, fun hh => by omega⟩
            · rcases List.mem_singleton.mp hr with rfl
              exact ⟨by show i + 2 ≤ i + 1 + 1; omega,
                fun _ => List.mem_cons_of_mem _ (List.mem_cons_self _ _)⟩
          · rw [List.pairwise_append]
            refine ⟨hdisj, List.pairwise_singleton _ _, ?_⟩
            intro a ha b hb
            rcases List.mem_singleton.mp hb with rfl
            obtain ⟨h1, h2⟩ := hend a ha
            have h3 : a.2.1 ≤ i := by
              rcases Nat.lt_or_ge a.2.1 (i + 1) with hh | hh
              · omega
              · exact absurd (h2 (by omega)) hu
            intro j hj
            obtain ⟨⟨hj1, hj2⟩, hj3, hj4⟩ := hj
            simp only at hj3 hj4
            omega
    · rw [bigramAux, if_neg hlt]
      exact ⟨hok, hdisj⟩

/-- Invariant of the unigram loop: every accumulated replacement is
either one of the initial (bigram) ranges or a fresh single-token
range at an unoccupied index whose base is outside the whitelist and
hyphen-free; the whole list stays pairwise disjoint. -/
theorem unigramAux_facts (m : MetaPokemon) (toks : List Token) (occ : List Repl) :
    ∀ (k i : Nat) (acc : List Repl),
    (∀ r ∈ acc, r ∈ occ ∨
      (r.2.1 = r.1 + 1 ∧ r.1 < toks.length ∧ r.1 < i ∧ inOccupied occ r.1 = false ∧
       lowerStr (stripBase (toks.getD r.1 dummyToken).text) ∉ m.whitelist_names_lower ∧
       '-' ∉ stripBase (toks.getD r.1 dummyToken).text)) →
    List.Pairwise ReplDisjoint acc →
    (∀ r ∈ unigramAux m toks occ k i acc, r ∈ occ ∨
      (r.2.1 = r.1 + 1 ∧ r.1 < toks.length ∧ inOccupied occ r.1 = false ∧
       lowerStr (stripBase (toks.getD r.1 dummyToken).text) ∉ m.whitelist_names_lower ∧
       '-' ∉ stripBase (toks.getD r.1 dummyToken).text)) ∧
    List.Pairwise ReplDisjoint (unigramAux m toks occ k i acc) := by
  intro k
  induction k with
  | zero =>
    intro i acc hok hdisj
    refine ⟨?_, hdisj⟩
    intro r hr
    rcases hok r hr with h | h
    · exact Or.inl h
    · exact Or.inr ⟨h.1, h.2.1, h.2.2.2⟩
  | succ k ih =>
    intro i acc hok hdisj
    by_cases hlt : i < toks.length
    · rw [unigramAux, if_pos hlt]
      by_cases hocc : inOccupied occ i
      · rw [if_pos hocc]
        refine ih (i + 1) acc ?_ hdisj
        intro r hr
        rcases hok r hr with h | h
        · exact Or.inl h
        · exact Or.inr ⟨h.1, h.2.1, by omega, h.2.2.2⟩
      · rw [if_neg hocc]
        cases haccept : unigramAccept m toks i with
        | none =>
          refine ih (i + 1) acc ?_ hdisj
          intro r hr
          rcases hok r hr with h | h
          · exact Or.inl h
          · exact Or.inr ⟨h.1, h.2.1, by omega, h.2.2.2⟩
        | some best =>
          obtain ⟨hw, hhyph⟩ := unigramAccept_facts m toks i best haccept
          have hoccf : inOccupied occ i = false := by
            exact Bool.eq_false_iff.mpr hocc
          refine ih (i + 1) (acc ++ [(i, i + 1, best)]) ?_ ?_
          · intro r hr
            rcases List.mem_append.mp hr with hr | hr
            · rcases hok r hr with h | h
              · exact Or.inl h
              · exact Or.inr ⟨h.1, h.2.1, by omega, h.2.2.2⟩
            · rcases List.mem_singleton.mp hr with rfl
              exact Or.inr ⟨rfl, hlt, by omega, hoccf, hw, hhyph⟩
          · rw [List.pairwise_append]
            refine ⟨hdisj, List.pairwise_singleton _ _, ?_⟩
            intro a ha b hb
            rcases List.mem_singleton.mp hb with rfl
            intro j hj
            obtain ⟨hja, hjb⟩ := hj
            have hji : j = i := by
              obtain ⟨hjb1, hjb2⟩ := hjb
              simp only at hjb1 hjb2
              omega
            subst hji
            rcases hok a ha with h | h
            · exact ((inOccupied_false_iff occ j).mp hoccf a h) hja
            · obtain ⟨hja1, hja2⟩ := hja
              omega
    · rw [unigramAux, if_neg hlt]
      refine ⟨?_, hdisj⟩
      intro r hr
      rcases hok r hr with h | h
      · exact Or.inl h
      · exact Or.inr ⟨h.1, h.2.1, h.2.2.2⟩

/-- Element facts about the full replacement list: every recorded
range is a bigram pair or a unigram singleton inside the token list;
the first base is never whitelisted; for a bigram the second base is
not whitelisted either; a unigram target is hyphen-free. -/
theorem replacementsOf_facts (line : Str) (m : MetaPokemon) :
    ∀ r ∈ replacementsOf line m,
      (r.2.1 = r.1 + 2 ∨ r.2.1 = r.1 + 1) ∧ r.2.1 ≤ (tokenize line).length ∧
      lowerStr (stripBase ((tokenize line).getD r.1 dummyToken).text) ∉
        m.whitelist_names_lower ∧
      (r.2.1 = r.1 + 2 →
        lowerStr (stripBase ((tokenize line).getD (r.1 + 1) dummyToken).text) ∉
          m.whitelist_names_lower) ∧
      (r.2.1 = r.1 + 1 → '-' ∉ stripBase ((tokenize line).getD r.1 dummyToken).text) := by
  intro r hr
  have hbig := bigramAux_facts line m (tokenize line) (tokenize line).length 0 [] []
    (fun r hr => by cases hr) (fun r hr => by cases hr) List.Pairwise.nil
  have huni := unigramAux_facts m (tokenize line)
    (bigramAux line m (tokenize line) (tokenize line).length 0 [] [])
    (tokenize line).length 0
    (bigramAux line m (tokenize line) (tokenize line).length 0 [] [])
    (fun r hr => Or.inl hr) hbig.2
  have hr' : r ∈ unigramAux m (tokenize line)
      (bigramAux line m (tokenize line) (tokenize line).length 0 [] [])
      (tokenize line).length 0
      (bigramAux line m (tokenize line) (tokenize line).length 0 [] []) := hr
  rcases huni.1 r hr' with h | h
  · obtain ⟨h1, h2, h3, h4⟩ := hbig.1 r h
    exact ⟨Or.inl h1, h2, h3, fun _ => h4, fun hh => by omega⟩
  · obtain ⟨h1, h2, h3, h4, h5⟩ := h
    exact ⟨Or.inr h1, by omega, h4, fun hh => by omega, fun _ => h5⟩

/-- C9: after both passes of `fix_line_with_meta` complete, the
token-index ranges of the recorded replacements are pairwise disjoint:
no token index belongs to two replacements, for every input line and
registry. -/
theorem replacements_pairwise_disjoint (line : Str) (m : MetaPokemon) :
    List.Pairwise ReplDisjoint (replacementsOf line m) := by
  have hbig := bigramAux_facts line m (tokenize line) (tokenize line).length 0 [] []
    (fun r hr => by cases hr) (fun r hr => by cases hr) List.Pairwise.nil
  have huni := unigramAux_facts m (tokenize line)
    (bigramAux line m (tokenize line) (tokenize line).length 0 [] [])
    (tokenize line).length 0
    (bigramAux line m (tokenize line) (tokenize line).length 0 [] [])
    (fun r hr => Or.inl hr) hbig.2
  exact huni.2

/-- C8 (amended): the unigram pass never replaces a hyphenated token —
every single-token replacement in the final list targets a token whose
stripped base contains no hyphen.  (A hyphenated token can still be
consumed by a bigram merge, see the counterexample.) -/
theorem unigram_never_replaces_hyphenated (line : Str) (m : MetaPokemon) :
    ∀ r ∈ replacementsOf line m, r.2.1 = r.1 + 1 →
      '-' ∉ stripBase ((tokenize line).getD r.1 dummyToken).text := by
  intro r hr hw
  exact (replacementsOf_facts line m r hr).2.2.2.2 hw

/-- Witness for the amended C8 at a concrete accepted unigram
replacement. -/
theorem unigram_never_replaces_hyphenated_witness :
    (0, 1, strL r"Abcd") ∈ replacementsOf (strL r"Abcf Efg") ⟨[strL r"Abcd", strL r"AbcdEfg"], []⟩ ∧
    ((0, 1, strL r"Abcd") : Repl).2.1 = ((0, 1, strL r"Abcd") : Repl).1 + 1 ∧
    '-' ∉ stripBase (((tokenize (strL r"Abcf Efg")).getD
      ((0, 1, strL r"Abcd") : Repl).1 dummyToken)).text :=
  ⟨by decide, rfl,
    unigram_never_replaces_hyphenated (strL r"Abcf Efg") ⟨[strL r"Abcd", strL r"AbcdEfg"], []⟩
      (0, 1, strL r"Abcd") (by decide) rfl⟩

/-! ### Sorting and span rewriting -/

/-- Insertion keeps all list members. -/
theorem insertDesc_perm (r : Repl) (l : List Repl) : (insertDesc r l).Perm (r :: l) := by
  induction l with
  | nil => exact List.Perm.refl _
  | cons a l ih =>
    rw [insertDesc]
    split
    · exact ((ih.cons a).trans (List.Perm.swap r a l)).symm.symm
    · exact List.Perm.refl _

/-- `sortDesc` permutes its input. -/
theorem sortDesc_perm (l : List Repl) : (sortDesc l).Perm l := by
  induction l with
  | nil => exact List.Perm.refl _
  | cons r l ih =>
    exact (insertDesc_perm r (sortDesc l)).trans (ih.cons r)

/-- Insertion preserves descending order of start offsets. -/
theorem insertDesc_sorted (r : Repl) (l : List Repl)
    (h : List.Pairwise (fun a b : Repl => b.1 ≤ a.1) l) :
    List.Pairwise (fun a b : Repl => b.1 ≤ a.1) (insertDesc r l) := by
  induction l with
  | nil => exact List.pairwise_singleton _ _
  | cons a l ih =>
    rw [insertDesc]
    split
    · rename_i hle
      rw [List.pairwise_cons] at h
      refine List.pairwise_cons.mpr ⟨?_, ih h.2⟩
      intro b hb
      have hb' : b ∈ r :: l := (insertDesc_perm r l).mem_iff.mp hb
      rcases List.mem_cons.mp hb' with hb2 | hb2
      · subst hb2
        omega
      · exact h.1 b hb2
    · rename_i hle
      refine List.pairwise_cons.mpr ⟨?_, h⟩
      intro b hb
      rcases List.mem_cons.mp hb with hb | hb
      · subst hb
        omega
      · rw [List.pairwise_cons] at h
        have := h.1 b hb
        omega

/-- `sortDesc` sorts by start offset, descending. -/
theorem sortDesc_sorted (l : List Repl) :
    List.Pairwise (fun a b : Repl => b.1 ≤ a.1) (sortDesc l) := by
  induction l with
  | nil => exact List.Pairwise.nil
  | cons r l ih => exact insertDesc_sorted r (sortDesc l) ih

/-- Character spans of the recorded replacements: each is a nonempty
in-bounds range of the line. -/
theorem charReplsOf_facts (line : Str) (m : MetaPokemon) :
    ∀ c ∈ charReplsOf line m, c.1 < c.2.1 ∧ c.2.1 ≤ line.length := by
  intro c hc
  simp only [charReplsOf, List.mem_map] at hc
  obtain ⟨r, hr, rfl⟩ := hc
  obtain ⟨hw, hle, _⟩ := replacementsOf_facts line m r hr
  have h1 : r.1 < (tokenize line).length := by omega
  have h2 : r.2.1 - 1 < (tokenize line).length := by omega
  rw [getD_eq_get _ _ _ h1, getD_eq_get _ _ _ h2]
  have hf1 := (tokenize_facts line).1 ((tokenize line).get ⟨r.1, h1⟩) (List.get_mem _ _ _)
  have hf2 := (tokenize_facts line).1 ((tokenize line).get ⟨r.2.1 - 1, h2⟩) (List.get_mem _ _ _)
  refine ⟨?_, ?_⟩
  · show ((tokenize line).get ⟨r.1, h1⟩).start < ((tokenize line).get ⟨r.2.1 - 1, h2⟩).stop
    rcases Nat.lt_or_ge r.1 (r.2.1 - 1) with hlt | hge
    · have horder := tokenize_order line r.1 (r.2.1 - 1) h1 h2 hlt
      calc ((tokenize line).get ⟨r.1, h1⟩).start
          < ((tokenize line).get ⟨r.1, h1⟩).stop := hf1.1
        _ ≤ ((tokenize line).get ⟨r.2.1 - 1, h2⟩).start := horder
        _ < ((tokenize line).get ⟨r.2.1 - 1, h2⟩).stop := hf2.1
    · have heq : (⟨r.1, h1⟩ : Fin (tokenize line).length) = ⟨r.2.1 - 1, h2⟩ :=
        Fin.ext (show r.1 = r.2.1 - 1 by omega)
      rw [← heq]
      exact hf1.1
  · show ((tokenize line).get ⟨r.2.1 - 1, h2⟩).stop ≤ line.length
    exact hf2.2.1

/-- Character spans of distinct replacements are disjoint intervals. -/
theorem charReplsOf_pairwise (line : Str) (m : MetaPokemon) :
    List.Pairwise (fun a b : Repl => a.2.1 ≤ b.1 ∨ b.2.1 ≤ a.1) (charReplsOf line m) := by
  rw [charReplsOf, List.pairwise_map]
  refine List.Pairwise.imp_of_mem ?_ (replacements_pairwise_disjoint line m)
  intro r r' hr hr' hdisj
  obtain ⟨hwid, hle, _⟩ := replacementsOf_facts line m r hr
  obtain ⟨hwid', hle', _⟩ := replacementsOf_facts line m r' hr'
  have hr1 : r.1 < r.2.1 := by omega
  have hr1' : r'.1 < r'.2.1 := by omega
  have horder : r.2.1 ≤ r'.1 ∨ r'.2.1 ≤ r.1 := by
    by_contra hcon
    push_neg at hcon
    obtain ⟨hc1, hc2⟩ := hcon
    rcases Nat.le_total r.1 r'.1 with hto | hto
    · exact hdisj r'.1 ⟨⟨hto, by omega⟩, ⟨Nat.le_refl _, by omega⟩⟩
    · exact hdisj r.1 ⟨⟨Nat.le_refl _, by omega⟩, ⟨hto, by omega⟩⟩
  have hb1 : r.1 < (tokenize line).length := by omega
  have hb2 : r.2.1 - 1 < (tokenize line).length := by omega
  have hb1' : r'.1 < (tokenize line).length := by omega
  have hb2' : r'.2.1 - 1 < (tokenize line).length := by omega
  rw [getD_eq_get _ _ _ hb1', getD_eq_get _ _ _ hb2, getD_eq_get _ _ _ hb1,
    getD_eq_get _ _ _ hb2']
  rcases horder with horder | horder
  · exact Or.inl (tokenize_order line (r.2.1 - 1) r'.1 hb2 hb1' (by omega))
  · exact Or.inr (tokenize_order line (r'.2.1 - 1) r.1 hb2' hb1 (by omega))

/-- Substituting spans that lie inside the prefix `A` leaves an
appended suffix `B` untouched. -/
theorem foldl_applyRepl_append (spans : List Repl) :
    ∀ (A B : Str),
    (∀ r ∈ spans, r.1 < r.2.1) →
    List.Pairwise (fun a b : Repl => b.2.1 ≤ a.1) spans →
    (∀ r ∈ spans, r.2.1 ≤ A.length) →
    spans.foldl applyRepl (A ++ B) = spans.foldl applyRepl A ++ B := by
  induction spans with
  | nil => intro A B _ _ _; rfl
  | cons r rest ih =>
    intro A B hne hsort hbound
    have hr := hbound r (List.mem_cons_self _ _)
    have hrne := hne r (List.mem_cons_self _ _)
    simp only [List.foldl_cons]
    have hstep : applyRepl (A ++ B) r = applyRepl A r ++ B := by
      unfold applyRepl
      rw [List.take_append_of_le_length (by omega), List.drop_append_of_le_length hr]
      simp [List.append_assoc]
    rw [hstep]
    rw [List.pairwise_cons] at hsort
    refine ih (applyRepl A r) B (fun x hx => hne x (List.mem_cons_of_mem _ hx)) hsort.2 ?_
    intro x hx
    have hxr : x.2.1 ≤ r.1 := hsort.1 x hx
    have hlen : r.1 ≤ (applyRepl A r).length := by
      unfold applyRepl
      simp only [List.length_append, List.length_take]
      omega
    omega

/-- The right-to-left substitution fold computes the recursive
right-to-left decomposition, provided the spans are descending,
disjoint and in bounds. -/
theorem foldl_applyRepl_eq_rebuildDesc (spans : List Repl) :
    ∀ (A : Str),
    (∀ r ∈ spans, r.1 < r.2.1 ∧ r.2.1 ≤ A.length) →
    List.Pairwise (fun a b : Repl => b.2.1 ≤ a.1) spans →
    spans.foldl applyRepl A = rebuildDesc A spans := by
  induction spans with
  | nil => intro A _ _; rfl
  | cons r rest ih =>
    intro A hfacts hsort
    have hr := hfacts r (List.mem_cons_self _ _)
    rw [List.pairwise_cons] at hsort
    simp only [List.foldl_cons, rebuildDesc]
    have hstep : applyRepl A r = A.take r.1 ++ (r.2.2 ++ A.drop r.2.1) := by
      unfold applyRepl
      rw [List.append_assoc]
    rw [hstep]
    have happ := foldl_applyRepl_append rest (A.take r.1) (r.2.2 ++ A.drop r.2.1)
      (fun x hx => (hfacts x (List.mem_cons_of_mem _ hx)).1) hsort.2 ?_
    · rw [happ]
      rw [ih (A.take r.1) ?_ hsort.2]
      · rw [List.append_assoc]
      · intro x hx
        refine ⟨(hfacts x (List.mem_cons_of_mem _ hx)).1, ?_⟩
        have := hsort.1 x hx
        simp only [List.length_take]
        omega
    · intro x hx
      have := hsort.1 x hx
      simp only [List.length_take]
      omega

/-- Appending a rightmost span to an ascending decomposition. -/
theorem rebuildAsc_append_last (line : Str) (r : Repl) :
    ∀ (asc : List Repl) (pos : Nat),
    (∀ x ∈ asc, x.1 < x.2.1 ∧ x.2.1 ≤ r.1) →
    rebuildAsc line pos (asc ++ [r]) =
      rebuildAsc (line.take r.1) pos asc ++ r.2.2 ++ line.drop r.2.1 := by
  intro asc
  induction asc with
  | nil =>
    intro pos _
    simp only [List.nil_append, rebuildAsc]
    rw [List.drop_take]
  | cons x asc ih =>
    intro pos hfacts
    have hx := hfacts x (List.mem_cons_self _ _)
    simp only [List.cons_append, rebuildAsc, List.append_eq]
    rw [ih x.2.1 (fun y hy => hfacts y (List.mem_cons_of_mem _ hy))]
    have htake : ((line.take r.1).drop pos).take (x.1 - pos) =
        ((line.drop pos).take (x.1 - pos)) := by
      rw [List.drop_take, List.take_take]
      congr 1
      omega
    rw [htake]
    simp [List.append_assoc]

/-- A descending decomposition is the ascending decomposition of the
reversed span list. -/
theorem rebuildDesc_eq_rebuildAsc (spans : List Repl) :
    ∀ (A : Str),
    (∀ r ∈ spans, r.1 < r.2.1) →
    List.Pairwise (fun a b : Repl => b.2.1 ≤ a.1) spans →
    rebuildDesc A spans = rebuildAsc A 0 spans.reverse := by
  induction spans with
  | nil => intro A _ _; rfl
  | cons r rest ih =>
    intro A hne hsort
    rw [List.pairwise_cons] at hsort
    simp only [rebuildDesc, List.reverse_cons]
    rw [ih (A.take r.1) (fun x hx => hne x (List.mem_cons_of_mem _ hx)) hsort.2]
    rw [rebuildAsc_append_last A r rest.reverse 0 ?_]
    intro x hx
    rw [List.mem_reverse] at hx
    exact ⟨(hne x (List.mem_cons_of_mem _ hx)), hsort.1 x hx⟩

/-- A line with no tokens produces no replacements. -/
theorem replacementsOf_nil (line : Str) (m : MetaPokemon) (h : tokenize line = []) :
    replacementsOf line m = [] := by
  simp [replacementsOf, h, bigramAux, unigramAux]

/-- The normalizer equals the ascending decomposition of the input
along the sorted accepted character spans. -/
theorem fix_line_eq_rebuildAsc (line : Str) (m : MetaPokemon) :
    fix_line_with_meta line m =
      rebuildAsc line 0 ((sortDesc (charReplsOf line m)).reverse) := by
  by_cases hrep : replacementsOf line m = []
  · have hchar : charReplsOf line m = [] := by
      simp [charReplsOf, hrep]
    have h1 : rebuildAsc line 0 ((sortDesc ([] : List Repl)).reverse) = line := by
      simp [sortDesc, rebuildAsc]
    rw [hchar, h1]
    simp [fix_line_with_meta, hrep]
  · have hperm := sortDesc_perm (charReplsOf line m)
    have hmem : ∀ c ∈ sortDesc (charReplsOf line m), c.1 < c.2.1 ∧ c.2.1 ≤ line.length :=
      fun c hc => charReplsOf_facts line m c (hperm.mem_iff.mp hc)
    have hdisj : List.Pairwise (fun a b : Repl => a.2.1 ≤ b.1 ∨ b.2.1 ≤ a.1)
        (sortDesc (charReplsOf line m)) :=
      (hperm.pairwise_iff (fun h => h.symm)).mpr (charReplsOf_pairwise line m)
    have hsorted := sortDesc_sorted (charReplsOf line m)
    have hstrong : List.Pairwise (fun a b : Repl => b.2.1 ≤ a.1)
        (sortDesc (charReplsOf line m)) := by
      refine (hsorted.and hdisj).imp_of_mem ?_
      intro a b ha hb hab
      obtain ⟨h1, h2⟩ := hab
      rcases h2 with h2 | h2
      · have := (hmem a ha).1
        omega
      · exact h2
    have htok : ¬ tokenize line = [] := fun h => hrep (replacementsOf_nil line m h)
    have hfold : fix_line_with_meta line m =
        (sortDesc (charReplsOf line m)).foldl applyRepl line := by
      simp only [fix_line_with_meta]
      rw [if_neg htok, if_neg hrep]
    rw [hfold, foldl_applyRepl_eq_rebuildDesc _ line hmem hstrong,
      rebuildDesc_eq_rebuildAsc _ line (fun r h => (hmem r h).1) hstrong]

/-- C3 (span correctness, the frame property of the Span Rewriter):
the output of `fix_line_with_meta` decomposes along the accepted
replacement character ranges (sorted ascending) — every character of
the input outside all accepted ranges appears unchanged, as a literal
slice of the input in input order, between the substituted texts; in
particular, when no replacements are produced the output is exactly
the input string. -/
theorem fix_line_span_decomposition (line : Str) (m : MetaPokemon) :
    fix_line_with_meta line m =
      rebuildAsc line 0 ((sortDesc (charReplsOf line m)).reverse) ∧
    (replacementsOf line m = [] → fix_line_with_meta line m = line) := by
  refine ⟨fix_line_eq_rebuildAsc line m, ?_⟩
  intro hrep
  rw [fix_line_eq_rebuildAsc line m]
  simp [charReplsOf, hrep, sortDesc, rebuildAsc]

/-- Witness for C3 at a concrete line and registry (one bigram and one
unigram replacement). -/
theorem fix_line_span_decomposition_witness :
    fix_line_with_meta (strL r"Sweet Coon surfed") ⟨[strL r"Suicune"], [strL r"suicune"]⟩ =
      rebuildAsc (strL r"Sweet Coon surfed") 0
        ((sortDesc (charReplsOf (strL r"Sweet Coon surfed")
          ⟨[strL r"Suicune"], [strL r"suicune"]⟩)).reverse) ∧
    (replacementsOf (strL r"Sweet Coon surfed") ⟨[strL r"Suicune"], [strL r"suicune"]⟩ = [] →
      fix_line_with_meta (strL r"Sweet Coon surfed") ⟨[strL r"Suicune"], [strL r"suicune"]⟩ =
        strL r"Sweet Coon surfed") :=
  fix_line_span_decomposition (strL r"Sweet Coon surfed") ⟨[strL r"Suicune"], [strL r"suicune"]⟩

/-- Interval-keeping lemma for the ascending decomposition: an input
interval `[a, b)` avoided by every span appears in the rebuilt string
as a literal slice, at output offset `shiftedPos`. -/
theorem rebuildAsc_keep (line : Str) :
    ∀ (spans : List Repl) (pos a b : Nat),
    pos ≤ a → a ≤ b → b ≤ line.length →
    (∀ r ∈ spans, pos ≤ r.1 ∧ r.1 < r.2.1 ∧ r.2.1 ≤ line.length) →
    List.Pairwise (fun r r' : Repl => r.2.1 ≤ r'.1) spans →
    (∀ r ∈ spans, r.2.1 ≤ a ∨ b ≤ r.1) →
    ∃ u v, rebuildAsc line pos spans = u ++ ((line.drop a).take (b - a)) ++ v ∧
      u.length = shiftedPos pos spans a := by
  intro spans
  induction spans with
  | nil =>
    intro pos a b hpa hab hbl _ _ _
    refine ⟨(line.drop pos).take (a - pos), line.drop b, ?_, ?_⟩
    · show line.drop pos = _
      conv_lhs => rw [← List.take_append_drop (a - pos) (line.drop pos)]
      have h1 : (line.drop pos).drop (a - pos) = line.drop a := by
        rw [List.drop_drop]
        congr 1
        omega
      rw [h1]
      conv_lhs => rw [← List.take_append_drop (b - a) (line.drop a)]
      have h2 : (line.drop a).drop (b - a) = line.drop b := by
        rw [List.drop_drop]
        congr 1
        omega
      rw [h2, List.append_assoc]
    · simp only [List.length_take, List.length_drop, shiftedPos]
      omega
  | cons r rest ih =>
    intro pos a b hpa hab hbl hfacts hsort havoid
    obtain ⟨hrpos, hrne, hrle⟩ := hfacts r (List.mem_cons_self _ _)
    rw [List.pairwise_cons] at hsort
    rcases havoid r (List.mem_cons_self _ _) with hr | hr
    · obtain ⟨u', v', hu', hlen'⟩ := ih r.2.1 a b (by omega) hab hbl
        (fun x hx => ⟨hsort.1 x hx, (hfacts x (List.mem_cons_of_mem _ hx)).2⟩)
        hsort.2 (fun x hx => havoid x (List.mem_cons_of_mem _ hx))
      refine ⟨(line.drop pos).take (r.1 - pos) ++ r.2.2 ++ u', v', ?_, ?_⟩
      · simp only [rebuildAsc]
        rw [hu']
        simp [List.append_assoc]
      · simp only [List.length_append, List.length_take, List.length_drop, shiftedPos]
        rw [if_pos hr, hlen']
        omega
    · refine ⟨(line.drop pos).take (a - pos),
        (line.drop b).take (r.1 - b) ++ r.2.2 ++ rebuildAsc line r.2.1 rest, ?_, ?_⟩
      · simp only [rebuildAsc]
        have hsplit : (line.drop pos).take (r.1 - pos) =
            (line.drop pos).take (a - pos) ++ (line.drop a).take (b - a) ++
              (line.drop b).take (r.1 - b) := by
          have e1 : r.1 - pos = (a - pos) + ((b - a) + (r.1 - b)) := by omega
          rw [e1, List.take_add]
          have h1 : (line.drop pos).drop (a - pos) = line.drop a := by
            rw [List.drop_drop]
            congr 1
            omega
          rw [h1, List.take_add]
          have h2 : (line.drop a).drop (b - a) = line.drop b := by
            rw [List.drop_drop]
            congr 1
            omega
          rw [h2, List.append_assoc]
        rw [hsplit]
        simp [List.append_assoc]
      · simp only [List.length_take, List.length_drop, shiftedPos]
        rw [if_neg (by omega)]
        omega

/-- The sorted character spans are strongly descending: each later
span ends at or before the start of the preceding one. -/
theorem sortDesc_charRepls_strong (line : Str) (m : MetaPokemon) :
    List.Pairwise (fun a b : Repl => b.2.1 ≤ a.1) (sortDesc (charReplsOf line m)) := by
  have hperm := sortDesc_perm (charReplsOf line m)
  have hmem : ∀ c ∈ sortDesc (charReplsOf line m), c.1 < c.2.1 ∧ c.2.1 ≤ line.length :=
    fun c hc => charReplsOf_facts line m c (hperm.mem_iff.mp hc)
  have hdisj : List.Pairwise (fun a b : Repl => a.2.1 ≤ b.1 ∨ b.2.1 ≤ a.1)
      (sortDesc (charReplsOf line m)) :=
    (hperm.pairwise_iff (fun h => h.symm)).mpr (charReplsOf_pairwise line m)
  refine ((sortDesc_sorted (charReplsOf line m)).and hdisj).imp_of_mem ?_
  intro a b ha hb hab
  obtain ⟨h1, h2⟩ := hab
  rcases h2 with h2 | h2
  · have := (hmem a ha).1
    omega
  · exact h2

/-- Character spans of replacements not covering token `i` avoid the
whole character range of token `i`. -/
theorem charRepls_avoid_token (line : Str) (m : MetaPokemon) (i : Nat)
    (hi : i < (tokenize line).length)
    (hnc : ∀ r ∈ replacementsOf line m, ¬ replCovers r i) :
    ∀ c ∈ charReplsOf line m,
      c.2.1 ≤ ((tokenize line).get ⟨i, hi⟩).start ∨
        ((tokenize line).get ⟨i, hi⟩).stop ≤ c.1 := by
  intro c hc
  simp only [charReplsOf, List.mem_map] at hc
  obtain ⟨r, hr, rfl⟩ := hc
  obtain ⟨hwid, hle, _⟩ := replacementsOf_facts line m r hr
  have hout : i < r.1 ∨ r.2.1 ≤ i := by
    have := hnc r hr
    simp only [replCovers] at this
    omega
  have hb1 : r.1 < (tokenize line).length := by omega
  have hb2 : r.2.1 - 1 < (tokenize line).length := by omega
  rw [getD_eq_get _ _ _ hb1, getD_eq_get _ _ _ hb2]
  rcases hout with hout | hout
  · exact Or.inr (tokenize_order line i r.1 hi hb1 hout)
  · exact Or.inl (tokenize_order line (r.2.1 - 1) i hb2 hi (by omega))

/-- C2 (whitelist protection): a token whose stripped base, lowercased,
is in the Registry's whitelist is never altered by either pass — no
recorded replacement covers its index, and its exact text appears
unchanged in the output of `fix_line_with_meta`, at the output offset
`shiftedPos` of its start. -/
theorem whitelist_token_preserved (line : Str) (m : MetaPokemon) (i : Nat)
    (hi : i < (tokenize line).length)
    (hw : lowerStr (stripBase ((tokenize line).getD i dummyToken).text) ∈
      m.whitelist_names_lower) :
    (∀ r ∈ replacementsOf line m, ¬ replCovers r i) ∧
    ∃ u v, fix_line_with_meta line m =
        u ++ ((tokenize line).getD i dummyToken).text ++ v ∧
      u.length = shiftedPos 0 ((sortDesc (charReplsOf line m)).reverse)
        ((tokenize line).getD i dummyToken).start := by
  have hnc : ∀ r ∈ replacementsOf line m, ¬ replCovers r i := by
    intro r hr hcov
    obtain ⟨hwid, hle, hb1, hb2, _⟩ := replacementsOf_facts line m r hr
    simp only [replCovers] at hcov
    have : i = r.1 ∨ (r.2.1 = r.1 + 2 ∧ i = r.1 + 1) := by omega
    rcases this with rfl | ⟨hww, rfl⟩
    · exact hb1 hw
    · exact hb2 hww hw
  refine ⟨hnc, ?_⟩
  rw [getD_eq_get _ _ _ hi]
  obtain ⟨hstart, hstop, hlen, htext⟩ :=
    (tokenize_facts line).1 ((tokenize line).get ⟨i, hi⟩) (List.get_mem _ _ _)
  have hperm := sortDesc_perm (charReplsOf line m)
  have hmemrev : ∀ c ∈ (sortDesc (charReplsOf line m)).reverse, c ∈ charReplsOf line m :=
    fun c hc => hperm.mem_iff.mp (List.mem_reverse.mp hc)
  have hfacts : ∀ c ∈ (sortDesc (charReplsOf line m)).reverse,
      0 ≤ c.1 ∧ c.1 < c.2.1 ∧ c.2.1 ≤ line.length := by
    intro c hc
    obtain ⟨h1, h2⟩ := charReplsOf_facts line m c (hmemrev c hc)
    exact ⟨Nat.zero_le _, h1, h2⟩
  have hsortasc : List.Pairwise (fun r r' : Repl => r.2.1 ≤ r'.1)
      ((sortDesc (charReplsOf line m)).reverse) :=
    List.pairwise_reverse.mpr (sortDesc_charRepls_strong line m)
  have havoid : ∀ c ∈ (sortDesc (charReplsOf line m)).reverse,
      c.2.1 ≤ ((tokenize line).get ⟨i, hi⟩).start ∨
        ((tokenize line).get ⟨i, hi⟩).stop ≤ c.1 :=
    fun c hc => charRepls_avoid_token line m i hi hnc c (hmemrev c hc)
  obtain ⟨u, v, hu, hulen⟩ := rebuildAsc_keep line
    ((sortDesc (charReplsOf line m)).reverse) 0
    ((tokenize line).get ⟨i, hi⟩).start ((tokenize line).get ⟨i, hi⟩).stop
    (Nat.zero_le _) (Nat.le_of_lt hstart) hstop hfacts hsortasc havoid
  refine ⟨u, v, ?_, hulen⟩
  rw [fix_line_eq_rebuildAsc line m, hu, htext]

/-- Witness for C2: the whitelisted token `Rock` survives the run
verbatim. -/
theorem whitelist_token_preserved_witness :
    0 < (tokenize (strL r"Rock on")).length ∧
    lowerStr (stripBase ((tokenize (strL r"Rock on")).getD 0 dummyToken).text) ∈
      (MetaPokemon.mk [strL r"Rocket"] [strL r"rock"]).whitelist_names_lower ∧
    ((∀ r ∈ replacementsOf (strL r"Rock on") ⟨[strL r"Rocket"], [strL r"rock"]⟩,
        ¬ replCovers r 0) ∧
      ∃ u v, fix_line_with_meta (strL r"Rock on") ⟨[strL r"Rocket"], [strL r"rock"]⟩ =
          u ++ ((tokenize (strL r"Rock on")).getD 0 dummyToken).text ++ v ∧
        u.length = shiftedPos 0
          ((sortDesc (charReplsOf (strL r"Rock on")
            ⟨[strL r"Rocket"], [strL r"rock"]⟩)).reverse)
          ((tokenize (strL r"Rock on")).getD 0 dummyToken).start) :=
  ⟨by decide, by decide,
    whitelist_token_preserved (strL r"Rock on") ⟨[strL r"Rocket"], [strL r"rock"]⟩ 0
      (by decide) (by decide)⟩
